import Mathlib

/-!
Verification of the streaming upload orchestrator of the `auto` overlay file
store (Rust sources under `src/src-tauri/src/`).  The Rust code is shallowly
embedded: byte buffers are `List Nat`, the persisted JSON maps are association
lists, and the cooperative sender loop is a fold over the arrival schedule of
chunks.  Loops of the source that are bounded by a data-size measure are
embedded with an explicit fuel argument equal to that measure, so every
definition is executable by the kernel.
-/

namespace AutoStore

/-! ## Association-map helpers

`HashMap<K, V>` values of the source (`pending_chunks` in the sender,
the persisted session map, the in-memory sender map) are embedded as
association lists.  `mapInsert` replaces any previous binding, like
`HashMap::insert`; `mapErase` removes every binding of the key, like
`HashMap::remove` on the maps with unique keys used by the source. -/

def mapLookup [DecidableEq κ] : List (κ × α) → κ → Option α
  | [], _ => none
  | (k', v) :: rest, k => if k' = k then some v else mapLookup rest k

def mapErase [DecidableEq κ] : List (κ × α) → κ → List (κ × α)
  | [], _ => []
  | (k', v) :: rest, k => if k' = k then mapErase rest k else (k', v) :: mapErase rest k

def mapInsert [DecidableEq κ] (m : List (κ × α)) (k : κ) (v : α) : List (κ × α) :=
  (k, v) :: mapErase m k

theorem mapLookup_mem [DecidableEq κ] {m : List (κ × α)} {k : κ} {v : α}
    (h : mapLookup m k = some v) : (k, v) ∈ m := by
  induction m with
  | nil => simp [mapLookup] at h
  | cons p rest ih =>
    obtain ⟨k', w⟩ := p
    by_cases hk : k' = k
    · subst hk
      rw [mapLookup, if_pos rfl] at h
      rw [Option.some.injEq] at h
      subst h
      exact List.mem_cons_self _ _
    · rw [mapLookup, if_neg hk] at h
      exact List.mem_cons_of_mem _ (ih h)

theorem eq_nil_of_mapLookup_none [DecidableEq κ] {m : List (κ × α)}
    (h : ∀ i, mapLookup m i = none) : m = [] := by
  cases m with
  | nil => rfl
  | cons p rest =>
    obtain ⟨k, v⟩ := p
    have := h k
    rw [mapLookup, if_pos rfl] at this
    exact absurd this (by simp)

theorem mapErase_subset [DecidableEq κ] {m : List (κ × α)} {k : κ} {p : κ × α}
    (h : p ∈ mapErase m k) : p ∈ m := by
  induction m with
  | nil => simp [mapErase] at h
  | cons q rest ih =>
    obtain ⟨k', v⟩ := q
    by_cases hk : k' = k
    · rw [mapErase, if_pos hk] at h
      exact List.mem_cons_of_mem _ (ih h)
    · rw [mapErase, if_neg hk] at h
      rcases List.mem_cons.mp h with h | h
      · exact h ▸ List.mem_cons_self _ _
      · exact List.mem_cons_of_mem _ (ih h)

theorem mapErase_length_le [DecidableEq κ] (m : List (κ × α)) (k : κ) :
    (mapErase m k).length ≤ m.length := by
  induction m with
  | nil => simp [mapErase]
  | cons q rest ih =>
    obtain ⟨a, b⟩ := q
    by_cases ha : a = k
    · rw [mapErase, if_pos ha]
      exact Nat.le_succ_of_le ih
    · rw [mapErase, if_neg ha]
      exact Nat.succ_le_succ ih

theorem mapErase_length_lt [DecidableEq κ] {m : List (κ × α)} {k : κ} {v : α}
    (h : mapLookup m k = some v) : (mapErase m k).length < m.length := by
  induction m with
  | nil => simp [mapLookup] at h
  | cons q rest ih =>
    obtain ⟨a, b⟩ := q
    by_cases ha : a = k
    · rw [mapErase, if_pos ha]
      exact Nat.lt_succ_of_le (mapErase_length_le rest k)
    · rw [mapLookup, if_neg ha] at h
      rw [mapErase, if_neg ha]
      exact Nat.succ_lt_succ (ih h)

theorem mapLookup_mapErase_self [DecidableEq κ] (m : List (κ × α)) (k : κ) :
    mapLookup (mapErase m k) k = none := by
  induction m with
  | nil => simp [mapErase, mapLookup]
  | cons q rest ih =>
    obtain ⟨a, b⟩ := q
    by_cases ha : a = k
    · rw [mapErase, if_pos ha]
      exact ih
    · rw [mapErase, if_neg ha, mapLookup, if_neg ha]
      exact ih

theorem mapLookup_mapErase_ne [DecidableEq κ] (m : List (κ × α)) {k k' : κ}
    (h : k' ≠ k) : mapLookup (mapErase m k) k' = mapLookup m k' := by
  induction m with
  | nil => simp [mapErase]
  | cons q rest ih =>
    obtain ⟨a, v⟩ := q
    by_cases ha : a = k
    · subst ha
      rw [mapErase, if_pos rfl, mapLookup, if_neg (Ne.symm h)]
      exact ih
    · by_cases ha' : a = k'
      · subst ha'
        rw [mapErase, if_neg ha, mapLookup, if_pos rfl, mapLookup, if_pos rfl]
      · rw [mapErase, if_neg ha, mapLookup, if_neg ha', mapLookup, if_neg ha']
        exact ih

theorem mapLookup_mapInsert_self [DecidableEq κ] (m : List (κ × α)) (k : κ) (v : α) :
    mapLookup (mapInsert m k v) k = some v := by
  rw [mapInsert, mapLookup, if_pos rfl]

theorem mapLookup_mapInsert_ne [DecidableEq κ] (m : List (κ × α)) {k k' : κ} (v : α)
    (h : k' ≠ k) : mapLookup (mapInsert m k v) k' = mapLookup m k' := by
  rw [mapInsert, mapLookup, if_neg (Ne.symm h)]
  exact mapLookup_mapErase_ne m h

theorem nodup_keys_unique [DecidableEq κ] {m : List (κ × α)} {k : κ} {v w : α}
    (hnd : (m.map Prod.fst).Nodup) (hv : (k, v) ∈ m) (hw : (k, w) ∈ m) : v = w := by
  induction m with
  | nil => simp at hv
  | cons q rest ih =>
    obtain ⟨a, b⟩ := q
    simp only [List.map_cons, List.nodup_cons] at hnd
    rcases List.mem_cons.mp hv with hv' | hv' <;> rcases List.mem_cons.mp hw with hw' | hw'
    · injection hv' with h1 h2
      injection hw' with h3 h4
      rw [h2, h4]
    · injection hv' with h1 h2
      subst h1
      exact absurd (List.mem_map.mpr ⟨(k, w), hw', rfl⟩) hnd.1
    · injection hw' with h1 h2
      subst h1
      exact absurd (List.mem_map.mpr ⟨(k, v), hv', rfl⟩) hnd.1
    · exact ih hnd.2 hv' hw'

/-- Removal from a plain id list (the in-memory sender-map keys). -/
def idErase : List String → String → List String
  | [], _ => []
  | x :: rest, k => if x = k then idErase rest k else x :: idErase rest k

theorem mem_idErase (l : List String) (k i : String) :
    i ∈ idErase l k ↔ i ∈ l ∧ i ≠ k := by
  induction l with
  | nil => simp [idErase]
  | cons x rest ih =>
    by_cases hx : x = k
    · subst hx
      rw [idErase, if_pos rfl]
      rw [ih]
      simp only [List.mem_cons]
      constructor
      · rintro ⟨h1, h2⟩
        exact ⟨Or.inr h1, h2⟩
      · rintro ⟨h1 | h1, h2⟩
        · exact absurd h1 h2
        · exact ⟨h1, h2⟩
    · rw [idErase, if_neg hx]
      simp only [List.mem_cons, ih]
      constructor
      · rintro (h1 | ⟨h1, h2⟩)
        · subst h1
          exact ⟨Or.inl rfl, hx⟩
        · exact ⟨Or.inr h1, h2⟩
      · rintro ⟨h1 | h1, h2⟩
        · exact Or.inl h1
        · exact Or.inr ⟨h1, h2⟩


/-! ## Archive codec (`zip_utils.rs`)

`zip_bytes` packs a byte buffer into a single-entry ZIP archive and
`unzip_or_raw` undoes it, falling back to the identity when the input
does not carry the ZIP local-header magic (`zip_utils.rs:7-41`).

The container layout and the compression codec live in the external
`zip`/`flate2` crates, not in this repository.  Modelled from the spec
(§4.1): the archive is a ZIP local header (magic, compression method,
name length, payload length) followed by the entry name and the payload;
header fields irrelevant to the pack/unpack round trip (versions, flags,
CRC-32, timestamps, the central directory) are elided.  Method code 0 is
`Stored` (raw payload), method code 8 is `Deflated`; the deflate stream
is modelled by the stored-block deflate encoding of RFC 1951 §3.2.4,
a conformant, invertible representative of the codec. -/

def pkMagic : List Nat := [80, 75, 3, 4]

def u16le (n : Nat) : List Nat := [n % 256, n / 256 % 256]

def u32le (n : Nat) : List Nat := u16le (n % 65536) ++ u16le (n / 65536)

def readU16 : List Nat → Option (Nat × List Nat)
  | b0 :: b1 :: rest => some (b0 + 256 * b1, rest)
  | _ => none

def readU32 (bs : List Nat) : Option (Nat × List Nat) :=
  match readU16 bs with
  | some (lo, r1) =>
    match readU16 r1 with
    | some (hi, r2) => some (lo + 65536 * hi, r2)
    | none => none
  | none => none

/-- Deflate encoder restricted to stored blocks (RFC 1951 §3.2.4): each block
is a `BFINAL`/`BTYPE=00` byte, `LEN`, `NLEN = 0xFFFF - LEN`, then `LEN` raw
bytes.  The fuel argument bounds the number of blocks; `data.length + 1`
always suffices since every non-final block consumes 65535 bytes. -/
def deflateGo : Nat → List Nat → List Nat
  | 0, _ => []
  | fuel + 1, data =>
    if data.length ≤ 65535 then
      1 :: (u16le data.length ++ u16le (65535 - data.length) ++ data)
    else
      0 :: (u16le 65535 ++ u16le 0 ++ data.take 65535 ++ deflateGo fuel (data.drop 65535))

def deflateStored (data : List Nat) : List Nat := deflateGo (data.length + 1) data

/-- Decoder for stored-block deflate streams.  Returns `none` on a malformed
stream.  The fuel argument bounds the number of blocks; each block header is
five bytes, so `bs.length + 1` always suffices. -/
def inflateGo : Nat → List Nat → Option (List Nat)
  | 0, _ => none
  | fuel + 1, bs =>
    match bs with
    | bfinal :: l0 :: l1 :: _ :: _ :: rest =>
      let len := l0 + 256 * l1
      if len ≤ rest.length then
        if bfinal = 1 then some (rest.take len)
        else
          match inflateGo fuel (rest.drop len) with
          | some more => some (rest.take len ++ more)
          | none => none
      else none
    | _ => none

def inflateStored (bs : List Nat) : Option (List Nat) := inflateGo (bs.length + 1) bs

/-- Compression method selection of `zip_bytes` (`zip_utils.rs:12-16`):
level 0 stores, levels above 0 deflate.  0 and 8 are the ZIP codes of
`CompressionMethod::Stored` and `CompressionMethod::Deflated`. -/
def methodCode (level : Nat) : Nat := if level = 0 then 0 else 8

def zipPayload (level : Nat) (data : List Nat) : List Nat :=
  if level = 0 then data else deflateStored data

/-- Embedding of `zip_bytes(data, entry_name, compress_level)` (`zip_utils.rs:7-26`).
The entry name is taken as its UTF-8 byte list. -/
def zip_bytes (data entryName : List Nat) (level : Nat) : List Nat :=
  pkMagic ++ u16le (methodCode level) ++ u16le entryName.length ++
    u32le (zipPayload level data).length ++ entryName ++ zipPayload level data

/-- Read entry 0 of an archive body (the bytes after the four magic bytes):
decode the header fields, skip the entry name, and undo the compression
method.  `none` models the `Err` of a malformed archive. -/
def readEntry0 (bs : List Nat) : Option (List Nat) :=
  match readU16 bs with
  | none => none
  | some (method, r1) =>
    match readU16 r1 with
    | none => none
    | some (nameLen, r2) =>
      match readU32 r2 with
      | none => none
      | some (dataLen, r3) =>
        if nameLen + dataLen ≤ r3.length then
          let payload := (r3.drop nameLen).take dataLen
          if method = 0 then some payload
          else if method = 8 then inflateStored payload
          else none
        else none

/-- Embedding of `unzip_or_raw` (`zip_utils.rs:30-41`): inputs not starting with the
`PK\x03\x04` magic are returned unchanged; after the magic check a malformed
archive is a hard error. -/
def unzip_or_raw (data : List Nat) : Except String (List Nat) :=
  if data.take 4 ≠ pkMagic then Except.ok data
  else
    match readEntry0 (data.drop 4) with
    | some out => Except.ok out
    | none => Except.error "read zip entry"

theorem deflateGo_succ (fuel : Nat) (data : List Nat) :
    deflateGo (fuel + 1) data =
      if data.length ≤ 65535 then
        1 :: (u16le data.length ++ u16le (65535 - data.length) ++ data)
      else
        0 :: (u16le 65535 ++ u16le 0 ++ data.take 65535 ++ deflateGo fuel (data.drop 65535)) :=
  rfl

theorem inflateGo_succ (fuel b0 l0 l1 n0 n1 : Nat) (rest : List Nat) :
    inflateGo (fuel + 1) (b0 :: l0 :: l1 :: n0 :: n1 :: rest) =
      (if l0 + 256 * l1 ≤ rest.length then
        if b0 = 1 then some (rest.take (l0 + 256 * l1))
        else
          match inflateGo fuel (rest.drop (l0 + 256 * l1)) with
          | some more => some (rest.take (l0 + 256 * l1) ++ more)
          | none => none
      else none) :=
  rfl

theorem readU16_u16le (n : Nat) (r : List Nat) :
    readU16 (u16le n ++ r) = some (n % 65536, r) := by
  simp only [u16le, List.cons_append, List.nil_append, readU16]
  congr 2
  omega

theorem readU32_u32le (n : Nat) (r : List Nat) :
    readU32 (u32le n ++ r) = some (n % 4294967296, r) := by
  simp only [u32le, List.append_assoc, readU32, readU16_u16le]
  congr 2
  omega

theorem deflateGo_length_le (fuel : Nat) : ∀ data : List Nat,
    (deflateGo fuel data).length ≤ data.length + 5 * (data.length / 65535 + 1) := by
  induction fuel with
  | zero => intro data; simp [deflateGo]
  | succ fuel ih =>
    intro data
    rw [deflateGo_succ]
    by_cases h : data.length ≤ 65535
    · rw [if_pos h]
      simp only [u16le, List.cons_append, List.nil_append, List.length_cons, List.length_append]
      omega
    · have hrec := ih (data.drop 65535)
      rw [List.length_drop] at hrec
      rw [if_neg h]
      simp only [u16le, List.cons_append, List.nil_append, List.length_cons,
        List.length_append, List.length_take]
      have hmin : (65535 : Nat) ⊓ data.length = 65535 := min_eq_left (by omega)
      rw [hmin]
      omega

theorem deflateGo_length_ge (fuel : Nat) : ∀ data : List Nat, data.length ≤ fuel →
    data.length ≤ (deflateGo (fuel + 1) data).length := by
  induction fuel with
  | zero =>
    intro data hlen
    have : data = [] := List.eq_nil_of_length_eq_zero (by omega)
    subst this
    simp [deflateGo]
  | succ fuel ih =>
    intro data hlen
    rw [deflateGo_succ]
    by_cases h : data.length ≤ 65535
    · rw [if_pos h]
      simp only [u16le, List.cons_append, List.nil_append, List.length_cons, List.length_append]
      omega
    · have hrec := ih (data.drop 65535) (by rw [List.length_drop]; omega)
      rw [List.length_drop] at hrec
      rw [if_neg h]
      simp only [u16le, List.cons_append, List.nil_append, List.length_cons,
        List.length_append, List.length_take]
      have hmin : (65535 : Nat) ⊓ data.length = 65535 := min_eq_left (by omega)
      rw [hmin]
      omega

theorem inflateGo_deflateGo (fuel : Nat) : ∀ gas data, data.length ≤ fuel →
    data.length < gas → inflateGo gas (deflateGo (fuel + 1) data) = some data := by
  induction fuel with
  | zero =>
    intro gas data hlen hgas
    have : data = [] := List.eq_nil_of_length_eq_zero (by omega)
    subst this
    obtain ⟨g, rfl⟩ : ∃ g, gas = g + 1 := ⟨gas - 1, by omega⟩
    rw [deflateGo_succ]
    norm_num [u16le, inflateGo_succ]
  | succ fuel ih =>
    intro gas data hlen hgas
    obtain ⟨g, rfl⟩ : ∃ g, gas = g + 1 := ⟨gas - 1, by omega⟩
    rw [deflateGo_succ]
    by_cases h : data.length ≤ 65535
    · rw [if_pos h]
      simp only [u16le, List.cons_append, List.nil_append]
      rw [inflateGo_succ]
      have hl : data.length % 256 + 256 * (data.length / 256 % 256) = data.length := by omega
      rw [hl, if_pos le_rfl, if_pos rfl, List.take_length]
    · rw [if_neg h]
      simp only [u16le, List.cons_append, List.nil_append]
      rw [inflateGo_succ]
      have hlen65 : (data.take 65535).length = 65535 := by
        rw [List.length_take]
        exact min_eq_left (by omega)
      have hc : (255 : Nat) % 256 + 256 * (255 / 256 % 256)  = 255 := by norm_num
      have hcond : (65535 : Nat) % 256 + 256 * (65535 / 256 % 256) = 65535 := by norm_num
      rw [hcond]
      have htot : 65535 ≤ (data.take 65535 ++ deflateGo (fuel + 1) (data.drop 65535)).length := by
        rw [List.length_append, hlen65]
        omega
      rw [if_pos htot, if_neg (by omega : (0 : Nat) ≠ 1)]
      have htake : (data.take 65535 ++ deflateGo (fuel + 1) (data.drop 65535)).take 65535 =
          data.take 65535 := List.take_left' hlen65
      have hdrop : (data.take 65535 ++ deflateGo (fuel + 1) (data.drop 65535)).drop 65535 =
          deflateGo (fuel + 1) (data.drop 65535) := List.drop_left' hlen65
      rw [htake, hdrop, ih g (data.drop 65535) (by rw [List.length_drop]; omega)
        (by rw [List.length_drop]; omega)]
      show some (data.take 65535 ++ data.drop 65535) = some data
      rw [List.take_append_drop]

theorem inflateStored_deflateStored (data : List Nat) :
    inflateStored (deflateStored data) = some data := by
  have hge := deflateGo_length_ge data.length data le_rfl
  exact inflateGo_deflateGo data.length ((deflateStored data).length + 1) data le_rfl
    (by simpa [deflateStored] using Nat.lt_succ_of_le hge)

theorem readEntry0_encode (m nl dl : Nat) (name payload : List Nat)
    (hm : m < 65536) (hnl : nl < 65536) (hdl : dl < 4294967296)
    (hname : name.length = nl) (hpay : payload.length = dl) :
    readEntry0 (u16le m ++ (u16le nl ++ (u32le dl ++ (name ++ payload)))) =
      if m = 0 then some payload else if m = 8 then inflateStored payload else none := by
  simp only [readEntry0, readU16_u16le, readU32_u32le]
  rw [Nat.mod_eq_of_lt hm, Nat.mod_eq_of_lt hnl, Nat.mod_eq_of_lt hdl]
  have hlen : nl + dl ≤ (name ++ payload).length := by
    rw [List.length_append, hname, hpay]
  rw [if_pos hlen]
  have hdropn : (name ++ payload).drop nl = payload := List.drop_left' hname
  have htaked : payload.take dl = payload := by
    rw [← hpay, List.take_length]
  rw [hdropn, htaked]

theorem zipPayload_length_lt (level : Nat) (data : List Nat)
    (hdata : data.length ≤ 1073741824) :
    (zipPayload level data).length < 4294967296 := by
  rw [zipPayload]
  by_cases h : level = 0
  · rw [if_pos h]
    omega
  · rw [if_neg h]
    have := deflateGo_length_le (data.length + 1) data
    rw [deflateStored]
    omega

/-- C2: unpacking the archive produced by packing returns the original bytes:
`unzip_or_raw (zip_bytes x n L) = x` for every byte buffer `x`, entry name
`n`, and compression level `L ∈ [0, 9]`.  The size bounds are the ZIP32
container limits (name length is a 16-bit field, payload length a 32-bit
field); every part the sender packs is far below them.  The level bound
mirrors the claim; the source only distinguishes level 0 from the rest
(`zip_utils.rs:12-16`), so the proof does not consume it. -/
theorem zip_roundtrip (data entryName : List Nat) (level : Nat)
    (hlvl : level ≤ 9) (hname : entryName.length < 65536)
    (hdata : data.length ≤ 1073741824) :
    unzip_or_raw (zip_bytes data entryName level) = Except.ok data := by
  have hassoc : zip_bytes data entryName level =
      pkMagic ++ (u16le (methodCode level) ++ (u16le entryName.length ++
        (u32le (zipPayload level data).length ++ (entryName ++ zipPayload level data)))) := by
    rw [zip_bytes]
    simp only [List.append_assoc]
  have hmagic : (zip_bytes data entryName level).take 4 = pkMagic := by
    rw [hassoc, show (4 : Nat) = pkMagic.length from rfl, List.take_left]
  have hdrop : (zip_bytes data entryName level).drop 4 =
      u16le (methodCode level) ++ (u16le entryName.length ++
        (u32le (zipPayload level data).length ++ (entryName ++ zipPayload level data))) := by
    rw [hassoc, show (4 : Nat) = pkMagic.length from rfl, List.drop_left]
  rw [unzip_or_raw, if_neg (by rw [hmagic]; simp), hdrop]
  have hm : methodCode level < 65536 := by
    rw [methodCode]
    split <;> norm_num
  rw [readEntry0_encode (methodCode level) entryName.length (zipPayload level data).length
    entryName (zipPayload level data) hm hname (zipPayload_length_lt level data hdata) rfl rfl]
  by_cases h : level = 0
  · rw [methodCode, if_pos h, if_pos rfl, zipPayload, if_pos h]
  · rw [methodCode, if_neg h, if_neg (by norm_num), if_pos rfl, zipPayload, if_neg h,
      inflateStored_deflateStored]

/-- Witness for C2 at a concrete input: packing `[10, 20, 30]` under entry
name bytes `[97, 98]` at deflate level 9 and unpacking returns the input. -/
theorem zip_roundtrip_witness :
    (9 : Nat) ≤ 9 ∧ ([97, 98] : List Nat).length < 65536 ∧
      ([10, 20, 30] : List Nat).length ≤ 1073741824 ∧
      unzip_or_raw (zip_bytes [10, 20, 30] [97, 98] 9) = Except.ok [10, 20, 30] :=
  ⟨by norm_num, by norm_num, by norm_num,
    zip_roundtrip [10, 20, 30] [97, 98] 9 (by norm_num) (by norm_num) (by norm_num)⟩

/-! ## Streaming sender (`upload.rs:149-297`)

The sender task drains an in-order prefix of the received chunks into a byte
buffer, cuts parts of exactly `input_limit` bytes as soon as the buffer is
large enough, and flushes the remaining short tail once every chunk has been
assembled or the chunk queue has been closed.  The model keeps the cut parts
in the state (the real loop hands them to concurrent dispatch tasks and
collects the resulting `PartInfo`s; the bytes cut and the part numbering are
decided before dispatch, so the dispatch concurrency is irrelevant to the
claims about them, and `all_parts.sort_by_key(part)` makes the collected
order the cut order).

The loop is embedded as one arrival event per iteration: the blocking
`chunk_rx.recv()` path of `upload.rs:255`.  The non-blocking `try_recv`
drain (`upload.rs:192-197`) can move several queued chunks into
`pending_chunks` in one iteration, but parts are fixed-size prefixes of the
same assembled stream, so the cut parts coincide with this schedule.  The
`while buffer.len() >= input_limit` loop does not terminate when
`input_limit == 0`; the model's cut loop stops instead, and every theorem
assumes `0 < input_limit` (the derived budgets are at least 5 MiB). -/

structure FilePart where
  num : Nat
  platform : String
  data : List Nat
deriving DecidableEq

structure SenderSt where
  pending : List (Nat × List Nat)
  nextExpected : Nat
  buffer : List Nat
  totalParts : Nat
  parts : List FilePart
deriving DecidableEq

/-- Routing criterion of `upload.rs:208`: `tg_enabled && (part_num % 2 == 0)`. -/
def useTgFor (tgEnabled : Bool) (partNum : Nat) : Bool := tgEnabled && partNum % 2 == 0

/-- Platform recorded by `dispatch_part` (`upload.rs:322-333`): `"telegram"`
when the part was routed to backend B, `"discord"` otherwise. -/
def partPlatform (useTg : Bool) : String := if useTg then "telegram" else "discord"

def mkPart (tg : Bool) (num : Nat) (d : List Nat) : FilePart :=
  ⟨num, partPlatform (useTgFor tg num), d⟩

/-- The `while let Some(data) = pending_chunks.remove(&next_expected)` loop of
`upload.rs:199-202`.  Fuel: each step removes one pending entry. -/
def drainGo : Nat → SenderSt → SenderSt
  | 0, st => st
  | fuel + 1, st =>
    match mapLookup st.pending st.nextExpected with
    | some d =>
      drainGo fuel { st with
        pending := mapErase st.pending st.nextExpected,
        nextExpected := st.nextExpected + 1,
        buffer := st.buffer ++ d }
    | none => st

def drainOrdered (st : SenderSt) : SenderSt := drainGo st.pending.length st

/-- The `while buffer.len() >= input_limit` loop of `upload.rs:205-217`.
Fuel: each cut drains `limit ≥ 1` bytes from the buffer. -/
def cutGo (tg : Bool) (limit : Nat) : Nat → SenderSt → SenderSt
  | 0, st => st
  | fuel + 1, st =>
    if 0 < limit ∧ limit ≤ st.buffer.length then
      cutGo tg limit fuel { st with
        buffer := st.buffer.drop limit,
        totalParts := st.totalParts + 1,
        parts := st.parts ++ [mkPart tg (st.totalParts + 1) (st.buffer.take limit)] }
    else st

def cutFullParts (tg : Bool) (limit : Nat) (st : SenderSt) : SenderSt :=
  cutGo tg limit st.buffer.length st

/-- The final-flush of `upload.rs:222-234` and `upload.rs:259-275`: drain the
whole remaining buffer into one (short) part when it is non-empty. -/
def flushShort (tg : Bool) (st : SenderSt) : SenderSt :=
  if st.buffer = [] then st
  else
    { st with
      buffer := [],
      totalParts := st.totalParts + 1,
      parts := st.parts ++ [mkPart tg (st.totalParts + 1) st.buffer] }

/-- Embedding of `all_in` (`upload.rs:219`): `next_expected >= total_chunks &&
pending_chunks.is_empty()`. -/
def allIn (total : Nat) (st : SenderSt) : Bool :=
  decide (total ≤ st.nextExpected) && st.pending.isEmpty

/-- One loop iteration processing one received chunk `(idx, data)`: insert it
into `pending_chunks`, move ordered chunks into the buffer, cut full parts,
and flush the final short part when `all_in` holds (`upload.rs:190-234`; the
model treats the dispatch-task list as drained, so the
`pending_tasks.is_empty()` guard of the flush at `upload.rs:222` is met). -/
def senderStep (tg : Bool) (limit total : Nat) (st : SenderSt) (ev : Nat × List Nat) : SenderSt :=
  let st1 := { st with pending := mapInsert st.pending ev.1 ev.2 }
  let st2 := cutFullParts tg limit (drainOrdered st1)
  if allIn total st2 then flushShort tg st2 else st2

def senderInit : SenderSt := ⟨[], 0, [], 0, []⟩

/-- The whole sender run over an arrival schedule: fold the loop over the
received events, then flush the remainder when the queue closes
(`upload.rs:257-277`). -/
def senderRun (tg : Bool) (limit total : Nat) (arrivals : List (Nat × List Nat)) : SenderSt :=
  flushShort tg (arrivals.foldl (senderStep tg limit total) senderInit)

/-- Concatenation of the cut parts in part order. -/
def partsBytes (st : SenderSt) : List Nat := (st.parts.map FilePart.data).flatten

def chunkAt (chunks : List (List Nat)) (i : Nat) : List Nat := chunks.getD i []

/-- Modelled from the spec: the budget computation
`(limit as f64 * safe_ratio) as u64` of `upload.rs:165-167` with the
`f64` ratio represented exactly as the rational `rNum / rDen`, so the
cast-to-integer truncation is natural-number division. -/
def backendBudget (limitBytes rNum rDen : Nat) : Nat := limitBytes * rNum / rDen

/-- Embedding of `input_limit` (`upload.rs:165-169`): the minimum of the backend A budget
and (when backend B is enabled) the backend B budget. -/
def inputLimit (tgEnabled : Bool) (guildLimit tgLimitBytes rNum rDen : Nat) : Nat :=
  min (backendBudget guildLimit rNum rDen)
    (if tgEnabled then backendBudget tgLimitBytes rNum rDen
     else backendBudget guildLimit rNum rDen)

theorem flatten_take_succ (chunks : List (List Nat)) (i : Nat) (h : i < chunks.length) :
    (chunks.take (i + 1)).flatten = (chunks.take i).flatten ++ chunkAt chunks i := by
  rw [List.take_succ, List.flatten_append]
  congr 1
  rw [chunkAt, List.getD_eq_getElem?_getD, List.getElem?_eq_getElem h]
  simp

/-- Loop invariant of the sender relative to the chunk list and the events
still to arrive (`R`): the indices bound in `pending_chunks` and the indices
still to arrive are exactly those at or above `next_expected`; every buffered
payload is the chunk of its index; and the bytes emitted so far (cut parts
followed by the buffer) are exactly the ordered prefix of the file assembled
so far. -/
structure DrainInv (chunks : List (List Nat)) (limit : Nat) (st : SenderSt)
    (R : List (Nat × List Nat)) : Prop where
  keysIff : ∀ i, (mapLookup st.pending i ≠ none ∨ i ∈ R.map Prod.fst) ↔
      (st.nextExpected ≤ i ∧ i < chunks.length)
  disjoint : ∀ i, mapLookup st.pending i ≠ none → i ∉ R.map Prod.fst
  pendingVals : ∀ p ∈ st.pending, p.2 = chunkAt chunks p.1
  restVals : ∀ r ∈ R, r.2 = chunkAt chunks r.1
  stream : partsBytes st ++ st.buffer = (chunks.take st.nextExpected).flatten
  partsFull : ∀ p ∈ st.parts, p.data.length = limit
  restNodup : (R.map Prod.fst).Nodup

theorem drainGo_drainInv (chunks : List (List Nat)) (limit : Nat)
    (R : List (Nat × List Nat)) :
    ∀ fuel (st : SenderSt), DrainInv chunks limit st R → st.pending.length ≤ fuel →
      DrainInv chunks limit (drainGo fuel st) R ∧
      mapLookup (drainGo fuel st).pending (drainGo fuel st).nextExpected = none := by
  intro fuel
  induction fuel with
  | zero =>
    intro st hinv hlen
    have hnil : st.pending = [] := List.eq_nil_of_length_eq_zero (by omega)
    refine ⟨hinv, ?_⟩
    show mapLookup st.pending st.nextExpected = none
    rw [hnil]
    rfl
  | succ fuel ih =>
    intro st hinv hlen
    cases hl : mapLookup st.pending st.nextExpected with
    | none =>
      simp only [drainGo, hl]
      exact ⟨hinv, trivial⟩
    | some d =>
      simp only [drainGo, hl]
      have hne_lt : st.nextExpected < chunks.length :=
        ((hinv.keysIff st.nextExpected).mp (Or.inl (by rw [hl]; simp))).2
      have hd : d = chunkAt chunks st.nextExpected :=
        hinv.pendingVals (st.nextExpected, d) (mapLookup_mem hl)
      apply ih
      · refine ⟨?_, ?_, ?_, ?_, ?_, ?_, ?_⟩
        · intro j
          show (mapLookup (mapErase st.pending st.nextExpected) j ≠ none ∨
              j ∈ R.map Prod.fst) ↔ (st.nextExpected + 1 ≤ j ∧ j < chunks.length)
          by_cases hj : j = st.nextExpected
          · subst hj
            constructor
            · rintro (h | h)
              · exact absurd (mapLookup_mapErase_self st.pending st.nextExpected) h
              · exact absurd h (hinv.disjoint st.nextExpected (by rw [hl]; simp))
            · rintro ⟨h1, _⟩
              omega
          · rw [mapLookup_mapErase_ne _ hj]
            have h0 := hinv.keysIff j
            constructor
            · intro h
              have h1 := h0.mp h
              exact ⟨by omega, h1.2⟩
            · intro h
              exact h0.mpr ⟨by omega, h.2⟩
        · intro j
          show mapLookup (mapErase st.pending st.nextExpected) j ≠ none → j ∉ R.map Prod.fst
          intro h
          by_cases hj : j = st.nextExpected
          · subst hj
            exact absurd (mapLookup_mapErase_self st.pending st.nextExpected) h
          · rw [mapLookup_mapErase_ne _ hj] at h
            exact hinv.disjoint j h
        · intro p hp
          exact hinv.pendingVals p (mapErase_subset hp)
        · exact hinv.restVals
        · show partsBytes st ++ (st.buffer ++ d) = (chunks.take (st.nextExpected + 1)).flatten
          rw [flatten_take_succ chunks st.nextExpected hne_lt, ← List.append_assoc,
            hinv.stream, hd]
        · exact hinv.partsFull
        · exact hinv.restNodup
      · have := mapErase_length_lt hl
        show (mapErase st.pending st.nextExpected).length ≤ fuel
        omega

theorem cutGo_succ (tg : Bool) (limit fuel : Nat) (st : SenderSt) :
    cutGo tg limit (fuel + 1) st =
      if 0 < limit ∧ limit ≤ st.buffer.length then
        cutGo tg limit fuel { st with
          buffer := st.buffer.drop limit,
          totalParts := st.totalParts + 1,
          parts := st.parts ++ [mkPart tg (st.totalParts + 1) (st.buffer.take limit)] }
      else st :=
  rfl

theorem cutGo_spec (tg : Bool) (limit : Nat) (hl : 0 < limit) :
    ∀ fuel (st : SenderSt), st.buffer.length ≤ fuel →
      (cutGo tg limit fuel st).pending = st.pending ∧
      (cutGo tg limit fuel st).nextExpected = st.nextExpected ∧
      partsBytes (cutGo tg limit fuel st) ++ (cutGo tg limit fuel st).buffer =
        partsBytes st ++ st.buffer ∧
      (cutGo tg limit fuel st).buffer.length < limit ∧
      ((∀ p ∈ st.parts, p.data.length = limit) →
        ∀ p ∈ (cutGo tg limit fuel st).parts, p.data.length = limit) := by
  intro fuel
  induction fuel with
  | zero =>
    intro st hlen
    refine ⟨rfl, rfl, rfl, ?_, fun h => h⟩
    show st.buffer.length < limit
    omega
  | succ fuel ih =>
    intro st hlen
    by_cases hc : 0 < limit ∧ limit ≤ st.buffer.length
    · rw [cutGo_succ, if_pos hc]
      have hrec := ih { st with
        buffer := st.buffer.drop limit,
        totalParts := st.totalParts + 1,
        parts := st.parts ++ [mkPart tg (st.totalParts + 1) (st.buffer.take limit)] }
        (by show (st.buffer.drop limit).length ≤ fuel; rw [List.length_drop]; omega)
      obtain ⟨hp, hn, hs, hb, hf⟩ := hrec
      refine ⟨hp, hn, ?_, hb, ?_⟩
      · rw [hs]
        have hps : partsBytes { st with
            buffer := st.buffer.drop limit,
            totalParts := st.totalParts + 1,
            parts := st.parts ++ [mkPart tg (st.totalParts + 1) (st.buffer.take limit)] } =
            partsBytes st ++ st.buffer.take limit := by
          simp [partsBytes, mkPart]
        rw [hps]
        show partsBytes st ++ st.buffer.take limit ++ st.buffer.drop limit =
          partsBytes st ++ st.buffer
        rw [List.append_assoc, List.take_append_drop]
      · intro hfull
        apply hf
        intro p hp'
        rcases List.mem_append.mp hp' with h | h
        · exact hfull p h
        · have hpe : p = mkPart tg (st.totalParts + 1) (st.buffer.take limit) := by
            simpa using h
          rw [hpe]
          show (st.buffer.take limit).length = limit
          rw [List.length_take]
          exact min_eq_left hc.2
    · rw [cutGo_succ, if_neg hc]
      have hblt : st.buffer.length < limit := by
        rcases Nat.lt_or_ge st.buffer.length limit with h | h
        · exact h
        · exact absurd ⟨hl, h⟩ hc
      exact ⟨rfl, rfl, rfl, hblt, fun h => h⟩

theorem flushShort_buffer (tg : Bool) (st : SenderSt) : (flushShort tg st).buffer = [] := by
  by_cases h : st.buffer = []
  · rw [flushShort, if_pos h, h]
  · rw [flushShort, if_neg h]

theorem flushShort_stream (tg : Bool) (st : SenderSt) :
    partsBytes (flushShort tg st) = partsBytes st ++ st.buffer := by
  by_cases h : st.buffer = []
  · rw [flushShort, if_pos h, h, List.append_nil]
  · rw [flushShort, if_neg h]
    show ((st.parts ++ [mkPart tg (st.totalParts + 1) st.buffer]).map FilePart.data).flatten = _
    rw [List.map_append, List.flatten_append]
    simp [partsBytes, mkPart]

theorem flushShort_of_nil (tg : Bool) (st : SenderSt) (h : st.buffer = []) :
    flushShort tg st = st := by
  rw [flushShort, if_pos h]

/-- Postcondition of a complete sender run: the cut parts reassemble the
file, and their sizes obey the `input_limit` discipline. -/
def SenderPost (chunks : List (List Nat)) (limit : Nat) (st : SenderSt) : Prop :=
  partsBytes st = chunks.flatten ∧
  (∀ p ∈ st.parts, 0 < p.data.length ∧ p.data.length ≤ limit) ∧
  (∀ p ∈ st.parts.dropLast, p.data.length = limit)

theorem senderStep_core (chunks : List (List Nat)) (tg : Bool) (limit : Nat) (hl : 0 < limit)
    (st : SenderSt) (i : Nat) (d : List Nat) (R' : List (Nat × List Nat))
    (hinv : DrainInv chunks limit st ((i, d) :: R')) :
    DrainInv chunks limit
      (cutFullParts tg limit (drainOrdered { st with pending := mapInsert st.pending i d })) R' ∧
    mapLookup
      (cutFullParts tg limit (drainOrdered { st with pending := mapInsert st.pending i d })).pending
      (cutFullParts tg limit
        (drainOrdered { st with pending := mapInsert st.pending i d })).nextExpected = none ∧
    (cutFullParts tg limit
      (drainOrdered { st with pending := mapInsert st.pending i d })).buffer.length < limit := by
  set st1 := { st with pending := mapInsert st.pending i d } with hst1
  have hiR : st.nextExpected ≤ i ∧ i < chunks.length :=
    (hinv.keysIff i).mp (Or.inr (by simp))
  have hiR' : i ∉ R'.map Prod.fst := by
    have h := hinv.restNodup
    simp only [List.map_cons, List.nodup_cons] at h
    exact h.1
  have hinv1 : DrainInv chunks limit st1 R' := by
    refine ⟨?_, ?_, ?_, ?_, ?_, ?_, ?_⟩
    · intro j
      by_cases hj : j = i
      · subst hj
        constructor
        · intro _
          exact hiR
        · intro _
          left
          rw [mapLookup_mapInsert_self]
          simp
      · show (mapLookup (mapInsert st.pending i d) j ≠ none ∨ j ∈ R'.map Prod.fst) ↔ _
        rw [mapLookup_mapInsert_ne _ _ hj]
        have h0 := hinv.keysIff j
        simp only [List.map_cons, List.mem_cons] at h0
        constructor
        · rintro (h | h)
          · exact h0.mp (Or.inl h)
          · exact h0.mp (Or.inr (Or.inr h))
        · intro h
          rcases h0.mpr h with h' | h'
          · exact Or.inl h'
          · rcases h' with h' | h'
            · exact absurd h' hj
            · exact Or.inr h'
    · intro j h
      by_cases hj : j = i
      · subst hj
        exact hiR'
      · rw [mapLookup_mapInsert_ne _ _ hj] at h
        have h1 := hinv.disjoint j h
        simp only [List.map_cons, List.mem_cons] at h1
        intro hj'
        exact h1 (Or.inr hj')
    · intro p hp
      rcases List.mem_cons.mp hp with hp | hp
      · rw [hp]
        exact hinv.restVals (i, d) (List.mem_cons_self _ _)
      · exact hinv.pendingVals p (mapErase_subset hp)
    · intro r hr
      exact hinv.restVals r (List.mem_cons_of_mem _ hr)
    · exact hinv.stream
    · exact hinv.partsFull
    · have h := hinv.restNodup
      simp only [List.map_cons, List.nodup_cons] at h
      exact h.2
  obtain ⟨hinv2, hlook2⟩ :=
    drainGo_drainInv chunks limit R' st1.pending.length st1 hinv1 le_rfl
  have hdo : drainGo st1.pending.length st1 = drainOrdered st1 := rfl
  rw [hdo] at hinv2 hlook2
  set st2 := drainOrdered st1 with hst2
  obtain ⟨hp3, hn3, hs3, hb3, hf3⟩ := cutGo_spec tg limit hl st2.buffer.length st2 le_rfl
  have hco : cutGo tg limit st2.buffer.length st2 = cutFullParts tg limit st2 := rfl
  rw [hco] at hp3 hn3 hs3 hb3 hf3
  refine ⟨⟨?_, ?_, ?_, ?_, ?_, ?_, ?_⟩, ?_, hb3⟩
  · intro j
    rw [hp3, hn3]
    exact hinv2.keysIff j
  · intro j h
    rw [hp3] at h
    exact hinv2.disjoint j h
  · intro p hp
    rw [hp3] at hp
    exact hinv2.pendingVals p hp
  · exact hinv2.restVals
  · rw [hn3, hs3]
    exact hinv2.stream
  · exact hf3 hinv2.partsFull
  · exact hinv2.restNodup
  · rw [hp3, hn3]
    exact hlook2

theorem senderStep_inv (chunks : List (List Nat)) (tg : Bool) (limit : Nat) (hl : 0 < limit)
    (st : SenderSt) (e : Nat × List Nat) (R' : List (Nat × List Nat)) (hR' : R' ≠ [])
    (hinv : DrainInv chunks limit st (e :: R')) :
    DrainInv chunks limit (senderStep tg limit chunks.length st e) R' := by
  obtain ⟨i, d⟩ := e
  obtain ⟨hinv3, hlook3, hbuf3⟩ := senderStep_core chunks tg limit hl st i d R' hinv
  set st3 := cutFullParts tg limit (drainOrdered { st with pending := mapInsert st.pending i d })
    with hst3
  obtain ⟨r, hr⟩ : ∃ r, r ∈ R' := by
    cases R' with
    | nil => exact absurd rfl hR'
    | cons a l => exact ⟨a, List.mem_cons_self _ _⟩
  have hr1 : st3.nextExpected ≤ r.1 ∧ r.1 < chunks.length :=
    (hinv3.keysIff r.1).mp (Or.inr (List.mem_map.mpr ⟨r, hr, rfl⟩))
  have hallIn : allIn chunks.length st3 = false := by
    rw [allIn]
    have hne : ¬(chunks.length ≤ st3.nextExpected) := by omega
    simp [hne]
  show DrainInv chunks limit (if allIn chunks.length st3 then flushShort tg st3 else st3) R'
  rw [hallIn]
  simp only [Bool.false_eq_true, if_false]
  exact hinv3

theorem senderStep_final (chunks : List (List Nat)) (tg : Bool) (limit : Nat) (hl : 0 < limit)
    (st : SenderSt) (e : Nat × List Nat)
    (hinv : DrainInv chunks limit st [e]) :
    SenderPost chunks limit (flushShort tg (senderStep tg limit chunks.length st e)) := by
  obtain ⟨i, d⟩ := e
  obtain ⟨hinv3, hlook3, hbuf3⟩ := senderStep_core chunks tg limit hl st i d [] hinv
  set st3 := cutFullParts tg limit (drainOrdered { st with pending := mapInsert st.pending i d })
    with hst3
  have hne_ge : chunks.length ≤ st3.nextExpected := by
    by_contra h
    push_neg at h
    rcases (hinv3.keysIff st3.nextExpected).mpr ⟨le_rfl, h⟩ with h' | h'
    · exact h' hlook3
    · simp at h'
  have hpend : st3.pending = [] := by
    apply eq_nil_of_mapLookup_none
    intro j
    by_contra h
    have h1 := (hinv3.keysIff j).mp (Or.inl h)
    omega
  have hallIn : allIn chunks.length st3 = true := by
    rw [allIn, hpend]
    simp [hne_ge]
  show SenderPost chunks limit
    (flushShort tg (if allIn chunks.length st3 then flushShort tg st3 else st3))
  rw [hallIn]
  simp only [if_true]
  rw [flushShort_of_nil tg _ (flushShort_buffer tg st3)]
  have htake : chunks.take st3.nextExpected = chunks := List.take_of_length_le hne_ge
  refine ⟨?_, ?_, ?_⟩
  · rw [flushShort_stream, hinv3.stream, htake]
  · intro p hp
    by_cases hb : st3.buffer = []
    · rw [flushShort_of_nil tg st3 hb] at hp
      have := hinv3.partsFull p hp
      constructor <;> omega
    · rw [flushShort, if_neg hb] at hp
      rcases List.mem_append.mp hp with h | h
      · have := hinv3.partsFull p h
        constructor <;> omega
      · have hpd : p = mkPart tg (st3.totalParts + 1) st3.buffer := by simpa using h
        rw [hpd]
        show 0 < st3.buffer.length ∧ st3.buffer.length ≤ limit
        have := List.length_pos.mpr hb
        constructor <;> omega
  · intro p hp
    by_cases hb : st3.buffer = []
    · rw [flushShort_of_nil tg st3 hb] at hp
      exact hinv3.partsFull p (List.dropLast_subset _ hp)
    · rw [flushShort, if_neg hb] at hp
      have heq : ({ st3 with
          buffer := ([] : List Nat),
          totalParts := st3.totalParts + 1,
          parts := st3.parts ++ [mkPart tg (st3.totalParts + 1) st3.buffer] } :
          SenderSt).parts.dropLast = st3.parts := by
        show (st3.parts ++ [mkPart tg (st3.totalParts + 1) st3.buffer]).dropLast = st3.parts
        rw [List.dropLast_concat]
      rw [heq] at hp
      exact hinv3.partsFull p hp

theorem senderRun_post (chunks : List (List Nat)) (tg : Bool) (limit : Nat) (hl : 0 < limit) :
    ∀ (R : List (Nat × List Nat)) (st : SenderSt), DrainInv chunks limit st R → R ≠ [] →
      SenderPost chunks limit
        (flushShort tg (R.foldl (senderStep tg limit chunks.length) st)) := by
  intro R
  induction R with
  | nil =>
    intro st _ h
    exact absurd rfl h
  | cons e R' ih =>
    intro st hinv _
    by_cases hR' : R' = []
    · subst hR'
      simp only [List.foldl]
      exact senderStep_final chunks tg limit hl st e hinv
    · simp only [List.foldl]
      exact ih _ (senderStep_inv chunks tg limit hl st e R' hR' hinv) hR'

theorem drainInv_init (chunks : List (List Nat)) (limit : Nat)
    (arrivals : List (Nat × List Nat)) (hperm : arrivals.Perm chunks.enum) :
    DrainInv chunks limit senderInit arrivals := by
  have hkeys : arrivals.map Prod.fst = arrivals.map Prod.fst := rfl
  have hpermKeys : (arrivals.map Prod.fst).Perm (List.range chunks.length) := by
    have := hperm.map Prod.fst
    rwa [List.enum_map_fst] at this
  refine ⟨?_, ?_, ?_, ?_, ?_, ?_, ?_⟩
  · intro i
    show (mapLookup ([] : List (Nat × List Nat)) i ≠ none ∨ i ∈ arrivals.map Prod.fst) ↔
      (0 ≤ i ∧ i < chunks.length)
    rw [show mapLookup ([] : List (Nat × List Nat)) i = none from rfl]
    constructor
    · rintro (h | h)
      · exact absurd rfl h
      · have := hpermKeys.mem_iff.mp h
        exact ⟨Nat.zero_le i, List.mem_range.mp this⟩
    · rintro ⟨_, h⟩
      exact Or.inr (hpermKeys.mem_iff.mpr (List.mem_range.mpr h))
  · intro i h
    exact absurd rfl h
  · intro p hp
    simp [senderInit] at hp
  · intro r hr
    have hmem : r ∈ chunks.enum := hperm.mem_iff.mp hr
    have := List.mem_enum_iff_getElem?.mp hmem
    rw [chunkAt, List.getD_eq_getElem?_getD, this]
    rfl
  · rfl
  · intro p hp
    simp [senderInit] at hp
  · exact (hpermKeys.nodup_iff).mpr (List.nodup_range chunks.length)

/-- C1: when chunks `0 .. total_chunks - 1` are each delivered to the sender
exactly once, in any arrival order, the concatenation of the parts the sender
cuts (the parts are produced in part order) equals the concatenation of the
chunk payloads in index order. -/
theorem sender_stream_reassembles (tg : Bool) (limit : Nat) (chunks : List (List Nat))
    (arrivals : List (Nat × List Nat)) (hl : 0 < limit)
    (hperm : arrivals.Perm chunks.enum) :
    partsBytes (senderRun tg limit chunks.length arrivals) = chunks.flatten := by
  cases harr : arrivals with
  | nil =>
    subst harr
    have henum : chunks.enum = [] := hperm.symm.eq_nil
    have hlen : chunks.length = 0 := by
      rw [← List.enum_length, henum]
      rfl
    have hc : chunks = [] := List.eq_nil_of_length_eq_zero hlen
    subst hc
    rfl
  | cons e R' =>
    subst harr
    rw [senderRun]
    exact (senderRun_post chunks tg limit hl (e :: R') senderInit
      (drainInv_init chunks limit _ hperm) (by simp)).1

/-- Witness for C1 at a concrete input: two one-byte chunks delivered in
reverse order reassemble to the original two bytes. -/
theorem sender_stream_reassembles_witness :
    0 < 1 ∧
      List.Perm [((1 : Nat), ([8] : List Nat)), (0, [7])] ([[7], [8]] : List (List Nat)).enum ∧
      partsBytes (senderRun false 1 ([[7], [8]] : List (List Nat)).length
        [(1, [8]), (0, [7])]) = ([[7], [8]] : List (List Nat)).flatten :=
  ⟨by decide, by decide,
    sender_stream_reassembles false 1 [[7], [8]] [(1, [8]), (0, [7])] (by decide) (by decide)⟩

theorem inputLimit_pos (tg : Bool) (g t rn rd : Nat) (hd : 0 < rd) (hr : rd ≤ 2 * rn)
    (hg : 10485760 ≤ g) (ht : 10485760 ≤ t) : 0 < inputLimit tg g t rn rd := by
  have key : ∀ x : Nat, 10485760 ≤ x → 0 < backendBudget x rn rd := by
    intro x hx
    rw [backendBudget]
    apply Nat.div_pos ?_ hd
    calc rd ≤ 2 * rn := hr
    _ ≤ x * rn := Nat.mul_le_mul_right rn (by omega)
  cases tg with
  | false =>
    show 0 < min (backendBudget g rn rd) (backendBudget g rn rd)
    rw [min_self]
    exact key g hg
  | true =>
    show 0 < min (backendBudget g rn rd) (backendBudget t rn rd)
    exact lt_min (key g hg) (key t ht)

/-- C3: in a run where every chunk arrives exactly once, every cut part has
uncompressed size at most `input_limit` (the minimum of the backend budgets
`floor(limit * safe_ratio)`), every part except possibly the last has size
exactly `input_limit`, and every part — the final one included — is
non-empty.  The ratio bounds are the config clamps (`safe_ratio ≥ 0.5`,
both backend caps at least 10 MiB). -/
theorem sender_part_sizes (tg : Bool) (guildLimit tgLimitBytes rNum rDen : Nat)
    (chunks : List (List Nat)) (arrivals : List (Nat × List Nat))
    (hden : 0 < rDen) (hr : rDen ≤ 2 * rNum)
    (hg : 10485760 ≤ guildLimit) (ht : 10485760 ≤ tgLimitBytes)
    (hperm : arrivals.Perm chunks.enum) :
    (∀ p ∈ (senderRun tg (inputLimit tg guildLimit tgLimitBytes rNum rDen)
        chunks.length arrivals).parts,
      0 < p.data.length ∧
        p.data.length ≤ inputLimit tg guildLimit tgLimitBytes rNum rDen) ∧
    (∀ p ∈ (senderRun tg (inputLimit tg guildLimit tgLimitBytes rNum rDen)
        chunks.length arrivals).parts.dropLast,
      p.data.length = inputLimit tg guildLimit tgLimitBytes rNum rDen) := by
  have hl := inputLimit_pos tg guildLimit tgLimitBytes rNum rDen hden hr hg ht
  cases harr : arrivals with
  | nil =>
    subst harr
    constructor
    · intro p hp
      simp [senderRun, senderInit, flushShort] at hp
    · intro p hp
      simp [senderRun, senderInit, flushShort] at hp
  | cons e R' =>
    subst harr
    have hpost := senderRun_post chunks tg _ hl (e :: R') senderInit
      (drainInv_init chunks _ _ hperm) (by simp)
    rw [senderRun]
    exact ⟨hpost.2.1, hpost.2.2⟩

/-- Witness for C3 at a concrete input: one short chunk with backend B
disabled yields a single non-empty part below the derived budget. -/
theorem sender_part_sizes_witness :
    0 < 2 ∧ 2 ≤ 2 * 1 ∧ (10485760 : Nat) ≤ 10485760 ∧ (10485760 : Nat) ≤ 52428800 ∧
      List.Perm [((0 : Nat), ([5] : List Nat))] ([[5]] : List (List Nat)).enum ∧
      ((∀ p ∈ (senderRun false (inputLimit false 10485760 52428800 1 2)
          ([[5]] : List (List Nat)).length [(0, [5])]).parts,
        0 < p.data.length ∧ p.data.length ≤ inputLimit false 10485760 52428800 1 2) ∧
      (∀ p ∈ (senderRun false (inputLimit false 10485760 52428800 1 2)
          ([[5]] : List (List Nat)).length [(0, [5])]).parts.dropLast,
        p.data.length = inputLimit false 10485760 52428800 1 2)) :=
  ⟨by decide, by decide, by decide, by decide, by decide,
    sender_part_sizes false 10485760 52428800 1 2 [[5]] [(0, [5])]
      (by decide) (by decide) (by decide) (by decide) (by decide)⟩

/-! ### Part numbering and routing -/

def partsRouted (tg : Bool) (st : SenderSt) : Prop :=
  st.totalParts = st.parts.length ∧
  st.parts.map FilePart.num = List.range' 1 st.parts.length ∧
  ∀ p ∈ st.parts, p.platform = partPlatform (useTgFor tg p.num)

theorem partsRouted_concat (tg : Bool) (st : SenderSt) (h : partsRouted tg st)
    (d b' : List Nat) (pend' : List (Nat × List Nat)) (ne' : Nat) :
    partsRouted tg
      { pending := pend',
        nextExpected := ne',
        buffer := b',
        totalParts := st.totalParts + 1,
        parts := st.parts ++ [mkPart tg (st.totalParts + 1) d] } := by
  obtain ⟨h1, h2, h3⟩ := h
  refine ⟨?_, ?_, ?_⟩
  · show st.totalParts + 1 = (st.parts ++ [mkPart tg (st.totalParts + 1) d]).length
    rw [List.length_append, h1]
    rfl
  · show (st.parts ++ [mkPart tg (st.totalParts + 1) d]).map FilePart.num =
      List.range' 1 (st.parts ++ [mkPart tg (st.totalParts + 1) d]).length
    rw [List.map_append, h2, List.length_append,
      show (st.parts.length + [mkPart tg (st.totalParts + 1) d].length) =
        st.parts.length + 1 from rfl,
      List.range'_concat]
    simp only [List.map_cons, List.map_nil, mkPart]
    have hnum : st.totalParts + 1 = 1 + 1 * st.parts.length := by omega
    rw [hnum]
  · intro p hp
    rcases List.mem_append.mp hp with hm | hm
    · exact h3 p hm
    · have hpe : p = mkPart tg (st.totalParts + 1) d := by simpa using hm
      rw [hpe]
      rfl

theorem partsRouted_congr (tg : Bool) {st st' : SenderSt}
    (hp : st'.parts = st.parts) (ht : st'.totalParts = st.totalParts)
    (h : partsRouted tg st) : partsRouted tg st' := by
  refine ⟨?_, ?_, ?_⟩
  · rw [hp, ht]
    exact h.1
  · rw [hp]
    exact h.2.1
  · intro p hpm
    rw [hp] at hpm
    exact h.2.2 p hpm

theorem drainGo_succ (fuel : Nat) (st : SenderSt) :
    drainGo (fuel + 1) st =
      match mapLookup st.pending st.nextExpected with
      | some d =>
        drainGo fuel { st with
          pending := mapErase st.pending st.nextExpected,
          nextExpected := st.nextExpected + 1,
          buffer := st.buffer ++ d }
      | none => st :=
  rfl

theorem drainGo_fields : ∀ (fuel : Nat) (st : SenderSt),
    (drainGo fuel st).parts = st.parts ∧ (drainGo fuel st).totalParts = st.totalParts := by
  intro fuel
  induction fuel with
  | zero => intro st; exact ⟨rfl, rfl⟩
  | succ fuel ih =>
    intro st
    cases hl : mapLookup st.pending st.nextExpected with
    | none =>
      rw [drainGo_succ, hl]
      exact ⟨rfl, rfl⟩
    | some d =>
      rw [drainGo_succ, hl]
      exact ⟨(ih _).1, (ih _).2⟩

theorem cutGo_routed (tg : Bool) (limit : Nat) : ∀ (fuel : Nat) (st : SenderSt),
    partsRouted tg st → partsRouted tg (cutGo tg limit fuel st) := by
  intro fuel
  induction fuel with
  | zero => intro st h; exact h
  | succ fuel ih =>
    intro st h
    by_cases hc : 0 < limit ∧ limit ≤ st.buffer.length
    · rw [cutGo_succ, if_pos hc]
      exact ih _ (partsRouted_concat tg st h _ _ _ _)
    · rw [cutGo_succ, if_neg hc]
      exact h

theorem flushShort_routed (tg : Bool) (st : SenderSt) (h : partsRouted tg st) :
    partsRouted tg (flushShort tg st) := by
  by_cases hb : st.buffer = []
  · rw [flushShort_of_nil tg st hb]
    exact h
  · rw [flushShort, if_neg hb]
    exact partsRouted_concat tg st h _ _ _ _

theorem senderStep_routed (tg : Bool) (limit total : Nat) (st : SenderSt) (e : Nat × List Nat)
    (h : partsRouted tg st) : partsRouted tg (senderStep tg limit total st e) := by
  have h1 : partsRouted tg { st with pending := mapInsert st.pending e.1 e.2 } :=
    partsRouted_congr tg rfl rfl h
  have h2 : partsRouted tg (drainOrdered { st with pending := mapInsert st.pending e.1 e.2 }) :=
    partsRouted_congr tg (drainGo_fields _ _).1 (drainGo_fields _ _).2 h1
  have h3 : partsRouted tg
      (cutFullParts tg limit (drainOrdered { st with pending := mapInsert st.pending e.1 e.2 })) :=
    cutGo_routed tg limit _ _ h2
  show partsRouted tg
    (if allIn total
        (cutFullParts tg limit (drainOrdered { st with pending := mapInsert st.pending e.1 e.2 }))
      then flushShort tg
        (cutFullParts tg limit (drainOrdered { st with pending := mapInsert st.pending e.1 e.2 }))
      else cutFullParts tg limit (drainOrdered { st with pending := mapInsert st.pending e.1 e.2 }))
  by_cases hai : allIn total
      (cutFullParts tg limit (drainOrdered { st with pending := mapInsert st.pending e.1 e.2 })) =
      true
  · rw [if_pos hai]
    exact flushShort_routed tg _ h3
  · rw [if_neg hai]
    exact h3

theorem senderRun_routed (tg : Bool) (limit total : Nat) (arrivals : List (Nat × List Nat)) :
    partsRouted tg (senderRun tg limit total arrivals) := by
  rw [senderRun]
  apply flushShort_routed
  have hfold : ∀ (l : List (Nat × List Nat)) (st : SenderSt), partsRouted tg st →
      partsRouted tg (l.foldl (senderStep tg limit total) st) := by
    intro l
    induction l with
    | nil => intro st h; exact h
    | cons e l' ih =>
      intro st h
      exact ih _ (senderStep_routed tg limit total st e h)
  refine hfold arrivals senderInit ⟨rfl, rfl, ?_⟩
  intro p hp
  simp [senderInit] at hp

/-- C4: the parts are numbered `1, 2, …` in cut order, and a part is routed
to backend B (`platform = "telegram"`) if and only if backend B is enabled
and the part's 1-based number is even; any part not routed to B is routed to
backend A (`platform = "discord"`).  This holds for every arrival schedule,
with no hypotheses on the chunks. -/
theorem sender_routing (tg : Bool) (limit total : Nat) (arrivals : List (Nat × List Nat)) :
    ((senderRun tg limit total arrivals).parts.map FilePart.num =
      List.range' 1 (senderRun tg limit total arrivals).parts.length) ∧
    ∀ p ∈ (senderRun tg limit total arrivals).parts,
      (p.platform = "telegram" ↔ (tg = true ∧ p.num % 2 = 0)) ∧
      (p.platform = "telegram" ∨ p.platform = "discord") := by
  obtain ⟨h1, h2, h3⟩ := senderRun_routed tg limit total arrivals
  refine ⟨h2, ?_⟩
  intro p hp
  have hplat := h3 p hp
  rw [hplat]
  simp only [partPlatform, useTgFor]
  by_cases htg : (tg && p.num % 2 == 0) = true
  · rw [if_pos htg]
    simp only [Bool.and_eq_true, beq_iff_eq] at htg
    exact ⟨⟨fun _ => htg, fun _ => rfl⟩, Or.inl rfl⟩
  · rw [if_neg htg]
    refine ⟨⟨fun h => absurd h (by decide), fun hcond => ?_⟩, Or.inr rfl⟩
    exfalso
    apply htg
    simp [hcond.1, hcond.2]

/-! ## Session store and HTTP handlers (`storage.rs`, `upload.rs:44-108`, `api.rs`)

The persisted session map (`upload_sessions.json`) is the association list
`sessions`; every handler's load–modify–save cycle is a pure function of it.
The in-memory sender map is modelled by the list of session ids holding a
live `SenderEntry` (`senderAlive`); the entry's channel and task handles are
runtime objects whose only observable in the handlers is existence and the
`try_send` outcome, which is an explicit parameter.  The history file and the
Discord side effects are outside this state model. -/

structure UploadSession where
  session_id : String
  filename : String
  file_size : Nat
  total_chunks : Nat
  received_chunks : List Nat
  folder_id : String
  message : String
  status : String
  created_at : String
  channel_id : Option String
  channel_name : Option String
  folder_name : Option String
  discord_result : Option String
deriving DecidableEq

def get_session (sessions : List (String × UploadSession)) (id : String) :
    Option UploadSession :=
  mapLookup sessions id

/-- Embedding of `update_session` (`upload.rs:89-93`): mutate the session in place when
present, save the (possibly unchanged) map.  The save's write error is only
printed by the source, so the function returns the map alone. -/
def update_session (sessions : List (String × UploadSession)) (id : String)
    (f : UploadSession → UploadSession) : List (String × UploadSession) :=
  match mapLookup sessions id with
  | some s => mapInsert sessions id (f s)
  | none => sessions

/-- The closure of `mark_chunk_received` (`upload.rs:95-102`): push the index
unless present, then `sort_unstable`.  Any comparison sort computes the same
(unique) sorted permutation, so `sort_unstable` is represented by insertion
sort. -/
def markReceived (idx : Nat) (s : UploadSession) : UploadSession :=
  if idx ∈ s.received_chunks then s
  else { s with received_chunks := List.insertionSort (· ≤ ·) (s.received_chunks ++ [idx]) }

def mark_chunk_received (sessions : List (String × UploadSession)) (id : String)
    (idx : Nat) : List (String × UploadSession) :=
  update_session sessions id (markReceived idx)

def delete_session_record (sessions : List (String × UploadSession)) (id : String) :
    List (String × UploadSession) :=
  mapErase sessions id

/-- Embedding of `create_session` (`upload.rs:56-83`).  The fresh id (first 12 hex digits
of `md5(filename ++ now_ms)`) and the `created_at` timestamp depend on the
clock, so both are oracle parameters. -/
def create_session (sessions : List (String × UploadSession)) (newId filename : String)
    (fileSize totalChunks : Nat) (folderId message nowIso : String) :
    List (String × UploadSession) :=
  mapInsert sessions newId
    { session_id := newId,
      filename := filename,
      file_size := fileSize,
      total_chunks := totalChunks,
      received_chunks := [],
      folder_id := folderId,
      message := message,
      status := "uploading",
      created_at := nowIso,
      channel_id := none,
      channel_name := none,
      folder_name := none,
      discord_result := none }

structure ApiState where
  sessions : List (String × UploadSession)
  senderAlive : List String
deriving DecidableEq

inductive InitResult where
  | ok (sessionId : String) (receivedChunks : List Nat) (chunkSize : Nat)
  | err (code : Nat)
deriving DecidableEq

/-- The resume-invalidation cleanup of `api.rs:263-264`: drop the in-memory
sender entry and delete the persisted session. -/
def purgeSession (st : ApiState) (sid : String) : ApiState :=
  { sessions := mapErase st.sessions sid, senderAlive := idErase st.senderAlive sid }

/-- The fresh-session path of `init_upload` (`api.rs:267-310`): resolve the
folder name (oracle `folderName`, from the folders file), create or look up
the per-file channel (`channelRes`, `none` is a creation error answered with
500), create the session, patch its channel fields, spawn the sender and
register its entry. -/
def createFresh (st : ApiState) (filename : String) (fileSize totalChunks : Nat)
    (folderId message : String) (folderName : Option String)
    (channelRes : Option (String × String)) (newId nowIso : String) (chunkSize : Nat) :
    InitResult × ApiState :=
  match channelRes with
  | none => (.err 500, st)
  | some (chId, chName) =>
    let sessions1 := create_session st.sessions newId filename fileSize totalChunks
      folderId message nowIso
    let sessions2 := update_session sessions1 newId (fun s =>
      { s with
        channel_id := some chId,
        channel_name := some chName,
        folder_name := folderName })
    (.ok newId [] chunkSize,
      { sessions := sessions2, senderAlive := newId :: idErase st.senderAlive newId })

/-- Embedding of `init_upload` (`api.rs:242-311`).  With a non-empty prior `session_id`,
resume iff the session exists, its status is `"uploading"` and the in-memory
sender entry is present; otherwise purge both and fall through to the fresh
path. -/
def init_upload (st : ApiState) (filename : String) (fileSize totalChunks : Nat)
    (folderId message resumeId : String) (folderName : Option String)
    (channelRes : Option (String × String)) (newId nowIso : String) (chunkSize : Nat) :
    InitResult × ApiState :=
  if resumeId = "" then
    createFresh st filename fileSize totalChunks folderId message folderName channelRes
      newId nowIso chunkSize
  else
    match mapLookup st.sessions resumeId with
    | some s =>
      if s.status = "uploading" ∧ resumeId ∈ st.senderAlive then
        (.ok resumeId s.received_chunks chunkSize, st)
      else
        createFresh (purgeSession st resumeId) filename fileSize totalChunks folderId message
          folderName channelRes newId nowIso chunkSize
    | none =>
      createFresh (purgeSession st resumeId) filename fileSize totalChunks folderId message
        folderName channelRes newId nowIso chunkSize

/-- The resumability test of `api.rs:252-262` as a boolean. -/
def resumeOk (st : ApiState) (sid : String) : Bool :=
  match mapLookup st.sessions sid with
  | some s => decide (s.status = "uploading" ∧ sid ∈ st.senderAlive)
  | none => false

inductive ChunkResult where
  | ok (received total : Nat)
  | err (code : Nat)
deriving DecidableEq

/-- Embedding of `upload_chunk` (`api.rs:313-341`).  `trySendOk` is the outcome of
`chunk_tx.try_send` when the entry exists (it fails when the bounded queue is
full or the receiver is gone).  Note: the handler never compares
`chunk_index` against `total_chunks`. -/
def upload_chunk (st : ApiState) (sid : String) (idx : Nat) (body : List Nat)
    (trySendOk : Bool) : ChunkResult × ApiState :=
  match mapLookup st.sessions sid with
  | none => (.err 404, st)
  | some s =>
    if s.status ≠ "uploading" ∧ s.status ≠ "sending" then (.err 400, st)
    else if body = [] then (.err 400, st)
    else
      let sent := decide (sid ∈ st.senderAlive) && trySendOk
      if sent = false then (.err 500, st)
      else
        let sessions1 := mark_chunk_received st.sessions sid idx
        let received := ((mapLookup sessions1 sid).map
          (fun s2 => s2.received_chunks.length)).getD 0
        (.ok received s.total_chunks, { st with sessions := sessions1 })

/-- Sender outcome as observed by `complete_upload`: the fields it branches
on.  The full `SenderResult` additionally carries `parts_info`,
`message_ids` and `jump_urls`, consumed only by the history record, which is
outside this state model. -/
structure SenderResultM where
  method : String
  parts : Nat
deriving DecidableEq

inductive CompleteResult where
  | ok
  | err (code : Nat)
deriving DecidableEq

/-- Embedding of `complete_upload` (`api.rs:350-413`).  `outcome` models
`entry.result_rx.await`: `none` is a closed result channel (sender
cancelled), `some (Except.error e)` a sender failure, `some (Except.ok r)`
success (the handler then writes the history record — outside this model —
and deletes the session). -/
def complete_upload (st : ApiState) (sid : String)
    (outcome : Option (Except String SenderResultM)) : CompleteResult × ApiState :=
  match mapLookup st.sessions sid with
  | none => (.err 404, st)
  | some s =>
    if s.received_chunks.length < s.total_chunks then (.err 400, st)
    else
      let sessions1 := update_session st.sessions sid
        (fun s2 => { s2 with status := "sending" })
      if sid ∈ st.senderAlive then
        let alive1 := idErase st.senderAlive sid
        match outcome with
        | none => (.err 500, { sessions := mapErase sessions1 sid, senderAlive := alive1 })
        | some (Except.error _) =>
          (.err 500, { sessions := mapErase sessions1 sid, senderAlive := alive1 })
        | some (Except.ok _) =>
          (.ok, { sessions := mapErase sessions1 sid, senderAlive := alive1 })
      else (.err 400, { st with sessions := sessions1 })

/-- Embedding of `cancel_upload` (`api.rs:415-421`): abort and drop the sender entry,
delete the session record, answer success. -/
def cancel_upload (st : ApiState) (sid : String) : ApiState :=
  { sessions := mapErase st.sessions sid, senderAlive := idErase st.senderAlive sid }

/-- A session record for concrete instances. -/
def sampleSession (sid status createdAt : String) (total : Nat) (received : List Nat) :
    UploadSession :=
  ⟨sid, "file.bin", 1024, total, received, "", "", status, createdAt,
    none, none, none, none⟩

theorem mapLookup_update_session (sessions : List (String × UploadSession)) (id : String)
    (f : UploadSession → UploadSession) (k : String) :
    mapLookup (update_session sessions id f) k =
      if k = id then (mapLookup sessions id).map f else mapLookup sessions k := by
  cases h : mapLookup sessions id with
  | none =>
    simp only [update_session, h]
    by_cases hk : k = id
    · subst hk
      rw [if_pos rfl, h]
      rfl
    · rw [if_neg hk]
  | some s =>
    simp only [update_session, h]
    by_cases hk : k = id
    · subst hk
      rw [if_pos rfl, mapLookup_mapInsert_self]
      rfl
    · rw [if_neg hk]
      exact mapLookup_mapInsert_ne _ _ hk

/-! ## GC loop (`main.rs:204-227`) -/

/-- The `created.timestamp() as u64` cast of `main.rs:212`: a two's-complement
`i64` reinterpreted as `u64`. -/
def i64ToU64 (t : Int) : Nat := (t % (2 ^ 64 : Int)).toNat

/-- The expiry test of `main.rs:211-215`: a session is expired when its
`created_at` parses as RFC3339, `now.saturating_sub(created) > ttl`, and the
status is `"uploading"`.  The RFC3339 parse (chrono, external) is a function
parameter, so the results hold for every parser. -/
def sessionExpired (parse : String → Option Int) (now ttl : Nat) (s : UploadSession) : Bool :=
  match parse s.created_at with
  | some t => decide (ttl < now - i64ToU64 t) && decide (s.status = "uploading")
  | none => false

/-- One GC tick (`main.rs:207-225`): collect the expired session ids, and
when any exist remove them from the map and save. -/
def gc_tick (parse : String → Option Int) (now ttl : Nat)
    (sessions : List (String × UploadSession)) : List (String × UploadSession) :=
  let expired := (sessions.filter (fun p => sessionExpired parse now ttl p.2)).map Prod.fst
  if expired.isEmpty then sessions
  else sessions.filter (fun p => decide (p.1 ∉ expired))

theorem mapLookup_filter [DecidableEq κ] {q : κ × α → Bool} :
    ∀ {m : List (κ × α)} {k : κ} {v : α},
      mapLookup m k = some v → q (k, v) = true → mapLookup (m.filter q) k = some v := by
  intro m
  induction m with
  | nil =>
    intro k v h
    simp [mapLookup] at h
  | cons p rest ih =>
    intro k v h hq
    obtain ⟨a, b⟩ := p
    by_cases ha : a = k
    · subst ha
      rw [mapLookup, if_pos rfl] at h
      injection h with h
      subst h
      rw [List.filter_cons, if_pos hq, mapLookup, if_pos rfl]
    · rw [mapLookup, if_neg ha] at h
      rw [List.filter_cons]
      by_cases hqa : q (a, b) = true
      · rw [if_pos hqa, mapLookup, if_neg ha]
        exact ih h hq
      · rw [if_neg hqa]
        exact ih h hq

/-- C9: a session whose `created_at` does not parse as RFC3339 is never
removed by a GC tick, regardless of its age, status, `now`, or the TTL; its
stored value is unchanged.  Quantified over every parse function, so it holds
for chrono's parser in particular. -/
theorem gc_spares_unparseable (parse : String → Option Int) (now ttl : Nat)
    (sessions : List (String × UploadSession)) (sid : String) (s : UploadSession)
    (hnd : (sessions.map Prod.fst).Nodup)
    (hlk : mapLookup sessions sid = some s)
    (hp : parse s.created_at = none) :
    mapLookup (gc_tick parse now ttl sessions) sid = some s := by
  rw [gc_tick]
  set expired := (sessions.filter (fun p => sessionExpired parse now ttl p.2)).map Prod.fst
    with hexp
  by_cases he : expired.isEmpty
  · rw [if_pos he]
    exact hlk
  · rw [if_neg he]
    have hsidx : sid ∉ expired := by
      rw [hexp]
      intro hmem
      obtain ⟨p, hpmem, hpeq⟩ := List.mem_map.mp hmem
      obtain ⟨a, v⟩ := p
      have ha : a = sid := hpeq
      subst ha
      have hpf := List.mem_filter.mp hpmem
      have hvs : v = s := nodup_keys_unique hnd hpf.1 (mapLookup_mem hlk)
      have hflag := hpf.2
      rw [hvs, sessionExpired, hp] at hflag
      exact absurd hflag (by simp)
    exact mapLookup_filter hlk (decide_eq_true hsidx)

/-- Witness for C9 at a concrete input: under a parser that rejects
everything, a stale uploading session survives the tick. -/
theorem gc_spares_unparseable_witness :
    (([("a", sampleSession "a" "uploading" "not-a-date" 3 [])].map Prod.fst).Nodup) ∧
      mapLookup [("a", sampleSession "a" "uploading" "not-a-date" 3 [])] "a" =
        some (sampleSession "a" "uploading" "not-a-date" 3 []) ∧
      (fun (_ : String) => (none : Option Int))
          (sampleSession "a" "uploading" "not-a-date" 3 []).created_at = none ∧
      mapLookup (gc_tick (fun _ => none) 1000000 10
          [("a", sampleSession "a" "uploading" "not-a-date" 3 [])]) "a" =
        some (sampleSession "a" "uploading" "not-a-date" 3 []) :=
  ⟨by decide, by decide, rfl,
    gc_spares_unparseable (fun _ => none) 1000000 10
      [("a", sampleSession "a" "uploading" "not-a-date" 3 [])] "a"
      (sampleSession "a" "uploading" "not-a-date" 3 []) (by decide) (by decide) rfl⟩

/-! ## Frame condition of `update_session` (C10) -/

/-- C10: calling `update_session` or `mark_chunk_received` with a session id
absent from the store returns the map unchanged — no session is created,
every existing session keeps its value — and the functions return normally
(no error value exists in their type; the source only prints save errors). -/
theorem update_session_absent_frame (sessions : List (String × UploadSession)) (id : String)
    (f : UploadSession → UploadSession) (idx : Nat)
    (h : mapLookup sessions id = none) :
    update_session sessions id f = sessions ∧
    mark_chunk_received sessions id idx = sessions := by
  have h1 : update_session sessions id f = sessions := by
    simp only [update_session, h]
  have h2 : mark_chunk_received sessions id idx = sessions := by
    rw [mark_chunk_received]
    simp only [update_session, h]
  exact ⟨h1, h2⟩

/-- Witness for C10 at a concrete input. -/
theorem update_session_absent_frame_witness :
    mapLookup [("a", sampleSession "a" "uploading" "t" 3 [])] "b" = none ∧
      (update_session [("a", sampleSession "a" "uploading" "t" 3 [])] "b" id =
        [("a", sampleSession "a" "uploading" "t" 3 [])] ∧
      mark_chunk_received [("a", sampleSession "a" "uploading" "t" 3 [])] "b" 0 =
        [("a", sampleSession "a" "uploading" "t" 3 [])]) :=
  ⟨by decide,
    update_session_absent_frame [("a", sampleSession "a" "uploading" "t" 3 [])] "b" id 0
      (by decide)⟩

/-! ## `complete_upload` guard (C7) -/

/-- C7: when `complete_upload` finds fewer received chunks than
`total_chunks` it answers 400 and the state is exactly unchanged — the
session map is untouched (so the status stays as it was) and the sender
entry stays in the map, so its chunk queue is not closed (closing happens
only by dropping `chunk_tx` after removal, `api.rs:361-366`). -/
theorem complete_upload_insufficient (st : ApiState) (sid : String) (s : UploadSession)
    (outcome : Option (Except String SenderResultM))
    (hlk : mapLookup st.sessions sid = some s)
    (hlt : s.received_chunks.length < s.total_chunks) :
    complete_upload st sid outcome = (CompleteResult.err 400, st) := by
  simp only [complete_upload, hlk, if_pos hlt]

/-- Witness for C7 at a concrete input: one of three chunks received. -/
theorem complete_upload_insufficient_witness :
    mapLookup (ApiState.mk [("s", sampleSession "s" "uploading" "t" 3 [0])] ["s"]).sessions
        "s" = some (sampleSession "s" "uploading" "t" 3 [0]) ∧
      (sampleSession "s" "uploading" "t" 3 [0]).received_chunks.length <
        (sampleSession "s" "uploading" "t" 3 [0]).total_chunks ∧
      complete_upload (ApiState.mk [("s", sampleSession "s" "uploading" "t" 3 [0])] ["s"])
          "s" none =
        (CompleteResult.err 400,
          ApiState.mk [("s", sampleSession "s" "uploading" "t" 3 [0])] ["s"]) :=
  ⟨by decide, by decide,
    complete_upload_insufficient
      (ApiState.mk [("s", sampleSession "s" "uploading" "t" 3 [0])] ["s"]) "s"
      (sampleSession "s" "uploading" "t" 3 [0]) none (by decide) (by decide)⟩

/-! ## `upload_chunk` after `cancel_upload` (C8) -/

/-- C8 counterexample: the claim says a chunk posted to a cancelled session
is answered with 500 (sender task gone); at this concrete state the answer
is 404, because `cancel_upload` also deletes the persisted session record,
so `upload_chunk` fails its first lookup. -/
theorem upload_chunk_after_cancel_counterexample :
    (upload_chunk
        (cancel_upload (ApiState.mk [("ab", sampleSession "ab" "uploading" "t" 3 [])] ["ab"])
          "ab") "ab" 0 [7] true).1 = ChunkResult.err 404 ∧
      ChunkResult.err 404 ≠ ChunkResult.err 500 := by
  exact ⟨by decide, by decide⟩

/-- C8 (amended): after `cancel_upload`, a subsequent `upload_chunk` for the
same session id returns 404 (session record deleted), not 500: the handler's
session lookup fails before the sender map is consulted. -/
theorem upload_chunk_after_cancel (st : ApiState) (sid : String) (idx : Nat)
    (body : List Nat) (trySendOk : Bool) :
    (upload_chunk (cancel_upload st sid) sid idx body trySendOk).1 = ChunkResult.err 404 := by
  have h : mapLookup (cancel_upload st sid).sessions sid = none :=
    mapLookup_mapErase_self st.sessions sid
  simp only [upload_chunk, h]

/-! ## `init_upload` resume semantics (C5) -/

theorem createFresh_after_purge (st : ApiState) (resumeId filename : String)
    (fileSize totalChunks : Nat) (folderId message : String) (folderName : Option String)
    (chId chName newId nowIso : String) (chunkSize : Nat) (hnew : newId ≠ resumeId) :
    (createFresh (purgeSession st resumeId) filename fileSize totalChunks folderId message
        folderName (some (chId, chName)) newId nowIso chunkSize).1 =
      InitResult.ok newId [] chunkSize ∧
    mapLookup (createFresh (purgeSession st resumeId) filename fileSize totalChunks folderId
        message folderName (some (chId, chName)) newId nowIso chunkSize).2.sessions
      resumeId = none ∧
    resumeId ∉ (createFresh (purgeSession st resumeId) filename fileSize totalChunks folderId
        message folderName (some (chId, chName)) newId nowIso chunkSize).2.senderAlive ∧
    newId ∈ (createFresh (purgeSession st resumeId) filename fileSize totalChunks folderId
        message folderName (some (chId, chName)) newId nowIso chunkSize).2.senderAlive ∧
    (∃ s, mapLookup (createFresh (purgeSession st resumeId) filename fileSize totalChunks
          folderId message folderName (some (chId, chName)) newId nowIso chunkSize).2.sessions
        newId = some s ∧
      s.status = "uploading" ∧ s.received_chunks = [] ∧ s.filename = filename ∧
      s.total_chunks = totalChunks) := by
  have hsess : (createFresh (purgeSession st resumeId) filename fileSize totalChunks folderId
      message folderName (some (chId, chName)) newId nowIso chunkSize).2.sessions =
      update_session
        (create_session (mapErase st.sessions resumeId) newId filename fileSize totalChunks
          folderId message nowIso) newId
        (fun s => { s with
          channel_id := some chId,
          channel_name := some chName,
          folder_name := folderName }) := rfl
  have halive : (createFresh (purgeSession st resumeId) filename fileSize totalChunks folderId
      message folderName (some (chId, chName)) newId nowIso chunkSize).2.senderAlive =
      newId :: idErase (idErase st.senderAlive resumeId) newId := rfl
  refine ⟨rfl, ?_, ?_, ?_, ?_⟩
  · rw [hsess, mapLookup_update_session, if_neg (Ne.symm hnew), create_session,
      mapLookup_mapInsert_ne _ _ (Ne.symm hnew), mapLookup_mapErase_self]
  · rw [halive]
    intro hmem
    rcases List.mem_cons.mp hmem with h | h
    · exact hnew h.symm
    · obtain ⟨h1, _⟩ := (mem_idErase _ _ _).mp h
      obtain ⟨_, h3⟩ := (mem_idErase _ _ _).mp h1
      exact h3 rfl
  · rw [halive]
    exact List.mem_cons_self _ _
  · refine
      ⟨{ session_id := newId,
         filename := filename,
         file_size := fileSize,
         total_chunks := totalChunks,
         received_chunks := [],
         folder_id := folderId,
         message := message,
         status := "uploading",
         created_at := nowIso,
         channel_id := some chId,
         channel_name := some chName,
         folder_name := folderName,
         discord_result := none },
        ?_, rfl, rfl, rfl, rfl⟩
    rw [hsess, mapLookup_update_session, if_pos rfl, create_session, mapLookup_mapInsert_self]
    rfl

/-- C5: when `init_upload` receives a prior `session_id`, it returns that id
with the stored `received_chunks` and leaves the state unchanged if and only
if the persisted session exists with status `"uploading"` and the in-memory
sender entry is present; otherwise the entry is dropped, the persisted
session is deleted, and a fresh session under the new (oracle) id is created
with status `"uploading"`, an empty `received_chunks`, and a live sender
entry.  Hypotheses: the prior id is non-empty, the fresh id differs from it
(distinct md5 inputs), and the channel creation succeeds. -/
theorem init_upload_resume_spec (st : ApiState) (filename : String)
    (fileSize totalChunks : Nat) (folderId message resumeId : String)
    (folderName : Option String) (chId chName newId nowIso : String) (chunkSize : Nat)
    (hres : resumeId ≠ "") (hnew : newId ≠ resumeId) :
    let r := init_upload st filename fileSize totalChunks folderId message resumeId
      folderName (some (chId, chName)) newId nowIso chunkSize
    (resumeOk st resumeId = true →
      ∃ s, mapLookup st.sessions resumeId = some s ∧
        r.1 = InitResult.ok resumeId s.received_chunks chunkSize ∧ r.2 = st) ∧
    (resumeOk st resumeId = false →
      r.1 = InitResult.ok newId [] chunkSize ∧
      mapLookup r.2.sessions resumeId = none ∧
      resumeId ∉ r.2.senderAlive ∧
      newId ∈ r.2.senderAlive ∧
      (∃ s, mapLookup r.2.sessions newId = some s ∧ s.status = "uploading" ∧
        s.received_chunks = [] ∧ s.filename = filename ∧ s.total_chunks = totalChunks)) ∧
    ((∃ recv cs, r.1 = InitResult.ok resumeId recv cs) ↔ resumeOk st resumeId = true) := by
  intro r
  cases hlk : mapLookup st.sessions resumeId with
  | none =>
    have hro : resumeOk st resumeId = false := by
      rw [resumeOk, hlk]
    have hr : r = createFresh (purgeSession st resumeId) filename fileSize totalChunks
        folderId message folderName (some (chId, chName)) newId nowIso chunkSize := by
      show init_upload st filename fileSize totalChunks folderId message resumeId folderName
        (some (chId, chName)) newId nowIso chunkSize = _
      simp only [init_upload, if_neg hres, hlk]
    have hspec := createFresh_after_purge st resumeId filename fileSize totalChunks folderId
      message folderName chId chName newId nowIso chunkSize hnew
    refine ⟨?_, ?_, ?_⟩
    · intro h
      rw [hro] at h
      exact absurd h (by simp)
    · intro _
      rw [hr]
      exact hspec
    · constructor
      · rintro ⟨recv, cs, h1⟩
        rw [hr] at h1
        rw [hspec.1] at h1
        injection h1 with h1'
        exact absurd h1' hnew
      · intro h
        rw [hro] at h
        exact absurd h (by simp)
  | some s =>
    by_cases hcond : s.status = "uploading" ∧ resumeId ∈ st.senderAlive
    · have hro : resumeOk st resumeId = true := by
        rw [resumeOk, hlk]
        exact decide_eq_true hcond
      have hr : r = (InitResult.ok resumeId s.received_chunks chunkSize, st) := by
        show init_upload st filename fileSize totalChunks folderId message resumeId folderName
          (some (chId, chName)) newId nowIso chunkSize = _
        simp only [init_upload, if_neg hres, hlk, if_pos hcond]
      refine ⟨?_, ?_, ?_⟩
      · intro _
        refine ⟨s, rfl, ?_, ?_⟩
        · rw [hr]
        · rw [hr]
      · intro h
        rw [hro] at h
        exact absurd h (by simp)
      · constructor
        · intro _
          exact hro
        · intro _
          exact ⟨s.received_chunks, chunkSize, by rw [hr]⟩
    · have hro : resumeOk st resumeId = false := by
        rw [resumeOk, hlk]
        exact decide_eq_false hcond
      have hr : r = createFresh (purgeSession st resumeId) filename fileSize totalChunks
          folderId message folderName (some (chId, chName)) newId nowIso chunkSize := by
        show init_upload st filename fileSize totalChunks folderId message resumeId folderName
          (some (chId, chName)) newId nowIso chunkSize = _
        simp only [init_upload, if_neg hres, hlk, if_neg hcond]
      have hspec := createFresh_after_purge st resumeId filename fileSize totalChunks folderId
        message folderName chId chName newId nowIso chunkSize hnew
      refine ⟨?_, ?_, ?_⟩
      · intro h
        rw [hro] at h
        exact absurd h (by simp)
      · intro _
        rw [hr]
        exact hspec
      · constructor
        · rintro ⟨recv, cs, h1⟩
          rw [hr] at h1
          rw [hspec.1] at h1
          injection h1 with h1'
          exact absurd h1' hnew
        · intro h
          rw [hro] at h
          exact absurd h (by simp)

/-- Witness for C5 at a concrete input: a resumable session answers with its
stored `received_chunks` under the same id. -/
theorem init_upload_resume_spec_witness :
    ("ab" : String) ≠ "" ∧ ("cd" : String) ≠ "ab" ∧
      (init_upload (ApiState.mk [("ab", sampleSession "ab" "uploading" "t" 3 [0])] ["ab"])
          "f" 1 3 "" "" "ab" none (some ("ch", "chn")) "cd" "t2" 4096).1 =
        InitResult.ok "ab" [0] 4096 := by
  refine ⟨by decide, by decide, ?_⟩
  obtain ⟨s, hs, h1, h2⟩ :=
    (init_upload_resume_spec
      (ApiState.mk [("ab", sampleSession "ab" "uploading" "t" 3 [0])] ["ab"])
      "f" 1 3 "" "" "ab" none "ch" "chn" "cd" "t2" 4096 (by decide) (by decide)).1 (by decide)
  rw [h1]
  have hs' : some (sampleSession "ab" "uploading" "t" 3 [0]) = some s := by
    rw [← hs]
    decide
  rw [← Option.some.inj hs']
  rfl

/-! ## `received_chunks` under chunk posts (C6) -/

/-- C6 counterexample: with `total_chunks = 3`, posting chunk index 5 is
accepted by `upload_chunk` (the handler never range-checks the index), so
`received_chunks` becomes `[5]`, which is not a subset of `[0, 3)`. -/
theorem received_chunks_range_counterexample :
    (((mapLookup (upload_chunk
          (ApiState.mk [("s", sampleSession "s" "uploading" "t" 3 [])] ["s"])
          "s" 5 [7] true).2.sessions "s").map
        (fun s => s.received_chunks)).getD []) = [5] ∧
      ¬(5 < 3) := by
  exact ⟨by decide, by decide⟩

/-- The two handler calls of the claim, as events over the API state. -/
inductive ChunkEvent where
  | chunk (sid : String) (idx : Nat) (body : List Nat) (trySendOk : Bool)
  | mark (sid : String) (idx : Nat)
deriving DecidableEq

def eventSid : ChunkEvent → String
  | .chunk s _ _ _ => s
  | .mark s _ => s

def eventIdx : ChunkEvent → Nat
  | .chunk _ i _ _ => i
  | .mark _ i => i

def applyChunkEvent (st : ApiState) (e : ChunkEvent) : ApiState :=
  match e with
  | .chunk sid idx body ok => (upload_chunk st sid idx body ok).2
  | .mark sid idx => { st with sessions := mark_chunk_received st.sessions sid idx }

theorem mapLookup_mark (sessions : List (String × UploadSession)) (id : String) (idx : Nat)
    (k : String) :
    mapLookup (mark_chunk_received sessions id idx) k =
      if k = id then (mapLookup sessions id).map (markReceived idx)
      else mapLookup sessions k := by
  rw [mark_chunk_received]
  exact mapLookup_update_session sessions id (markReceived idx) k

theorem upload_chunk_sessions (st : ApiState) (sid : String) (idx : Nat) (body : List Nat)
    (ok : Bool) :
    (upload_chunk st sid idx body ok).2.sessions = st.sessions ∨
    (upload_chunk st sid idx body ok).2.sessions = mark_chunk_received st.sessions sid idx := by
  cases hlk : mapLookup st.sessions sid with
  | none =>
    left
    simp only [upload_chunk, hlk]
  | some s =>
    by_cases h1 : s.status ≠ "uploading" ∧ s.status ≠ "sending"
    · left
      simp only [upload_chunk, hlk, if_pos h1]
    · by_cases h2 : body = []
      · left
        simp only [upload_chunk, hlk, if_neg h1, if_pos h2]
      · by_cases h3 : (decide (sid ∈ st.senderAlive) && ok) = false
        · left
          simp only [upload_chunk, hlk, if_neg h1, if_neg h2, if_pos h3]
        · right
          simp only [upload_chunk, hlk, if_neg h1, if_neg h2, if_neg h3]

/-- The invariant of a session's `received_chunks` under chunk posts:
constant `total_chunks`, sorted, duplicate-free, and within range. -/
def ReceivedInv (total : Nat) (s : UploadSession) : Prop :=
  s.total_chunks = total ∧
  List.Sorted (· ≤ ·) s.received_chunks ∧
  s.received_chunks.Nodup ∧
  ∀ i ∈ s.received_chunks, i < total

theorem markReceived_inv (total idx : Nat) (s : UploadSession) (h : ReceivedInv total s)
    (hidx : idx < total) : ReceivedInv total (markReceived idx s) := by
  obtain ⟨h1, h2, h3, h4⟩ := h
  rw [markReceived]
  by_cases hmem : idx ∈ s.received_chunks
  · rw [if_pos hmem]
    exact ⟨h1, h2, h3, h4⟩
  · rw [if_neg hmem]
    have hperm := List.perm_insertionSort (· ≤ ·) (s.received_chunks ++ [idx])
    refine ⟨h1, ?_, ?_, ?_⟩
    · exact List.sorted_insertionSort (· ≤ ·) (s.received_chunks ++ [idx])
    · apply hperm.symm.nodup
      rw [List.nodup_append]
      exact ⟨h3, List.nodup_singleton idx, by simpa using hmem⟩
    · intro i hi
      rcases List.mem_append.mp (hperm.mem_iff.mp hi) with hm | hm
      · exact h4 i hm
      · have : i = idx := by simpa using hm
        omega

theorem mark_preserves_inv (total : Nat) (S sid : String) (idx : Nat)
    (sessions : List (String × UploadSession))
    (hidx : S = sid → idx < total)
    (hinv : ∀ s, mapLookup sessions S = some s → ReceivedInv total s) :
    ∀ s, mapLookup (mark_chunk_received sessions sid idx) S = some s → ReceivedInv total s := by
  intro s hs
  rw [mapLookup_mark] at hs
  by_cases hS : S = sid
  · subst hS
    rw [if_pos rfl] at hs
    cases hlk : mapLookup sessions S with
    | none =>
      rw [hlk] at hs
      exact absurd hs (by simp)
    | some s0 =>
      rw [hlk] at hs
      have hse : markReceived idx s0 = s := by
        simpa using hs
      rw [← hse]
      exact markReceived_inv total idx s0 (hinv s0 hlk) (hidx rfl)
  · rw [if_neg hS] at hs
    exact hinv s hs

theorem applyChunkEvent_inv (total : Nat) (S : String) (st : ApiState) (e : ChunkEvent)
    (hstep : eventSid e = S → eventIdx e < total)
    (hinv : ∀ s, mapLookup st.sessions S = some s → ReceivedInv total s) :
    ∀ s, mapLookup (applyChunkEvent st e).sessions S = some s → ReceivedInv total s := by
  cases e with
  | mark sid idx =>
    intro s hs
    rw [show (applyChunkEvent st (.mark sid idx)).sessions =
      mark_chunk_received st.sessions sid idx from rfl] at hs
    exact mark_preserves_inv total S sid idx st.sessions
      (fun h => hstep (by rw [eventSid, h])) hinv s hs
  | chunk sid idx body ok =>
    intro s hs
    rw [show (applyChunkEvent st (.chunk sid idx body ok)).sessions =
      (upload_chunk st sid idx body ok).2.sessions from rfl] at hs
    rcases upload_chunk_sessions st sid idx body ok with h | h
    · rw [h] at hs
      exact hinv s hs
    · rw [h] at hs
      exact mark_preserves_inv total S sid idx st.sessions
        (fun hS => hstep (by rw [eventSid, hS])) hinv s hs

theorem chunkEvents_inv (total : Nat) (S : String) :
    ∀ (events : List ChunkEvent) (st : ApiState),
      (∀ e ∈ events, eventSid e = S → eventIdx e < total) →
      (∀ s, mapLookup st.sessions S = some s → ReceivedInv total s) →
      ∀ s, mapLookup (events.foldl applyChunkEvent st).sessions S = some s →
        ReceivedInv total s := by
  intro events
  induction events with
  | nil =>
    intro st _ hinv
    exact hinv
  | cons e evs ih =>
    intro st hall hinv
    exact ih _ (fun e' he' => hall e' (List.mem_cons_of_mem _ he'))
      (applyChunkEvent_inv total S st e (hall e (List.mem_cons_self _ _)) hinv)

/-- C6 (amended): under any sequence of `upload_chunk` and
`mark_chunk_received` calls, a session's `received_chunks` stays sorted and
duplicate-free and its `total_chunks` is unchanged; it stays a subset of
`[0, total_chunks)` provided every call that targets the session uses a
chunk index below `total_chunks` — the handler itself never checks the
range, so out-of-range indices are recorded verbatim (see the
counterexample). -/
theorem received_chunks_invariant (st : ApiState) (events : List ChunkEvent) (S : String)
    (s0 : UploadSession)
    (h0 : mapLookup st.sessions S = some s0)
    (hsorted : List.Sorted (· ≤ ·) s0.received_chunks)
    (hnd : s0.received_chunks.Nodup)
    (hsub : ∀ i ∈ s0.received_chunks, i < s0.total_chunks)
    (hidx : ∀ e ∈ events, eventSid e = S → eventIdx e < s0.total_chunks) :
    ∀ s, mapLookup ((events.foldl applyChunkEvent st)).sessions S = some s →
      s.total_chunks = s0.total_chunks ∧
      List.Sorted (· ≤ ·) s.received_chunks ∧
      s.received_chunks.Nodup ∧
      ∀ i ∈ s.received_chunks, i < s0.total_chunks := by
  have hbase : ∀ s, mapLookup st.sessions S = some s → ReceivedInv s0.total_chunks s := by
    intro s hs
    rw [h0] at hs
    have : s0 = s := Option.some.inj hs
    rw [← this]
    exact ⟨rfl, hsorted, hnd, hsub⟩
  exact chunkEvents_inv s0.total_chunks S events st hidx hbase

/-- Witness for C6 (amended) at a concrete input: posting chunk 1 then
marking chunk 0 leaves `received_chunks = [0, 1]`, sorted, unique and in
range. -/
theorem received_chunks_invariant_witness :
    mapLookup [("s", sampleSession "s" "uploading" "t" 3 [])] "s" =
        some (sampleSession "s" "uploading" "t" 3 []) ∧
      List.Sorted (· ≤ ·) (sampleSession "s" "uploading" "t" 3 []).received_chunks ∧
      (sampleSession "s" "uploading" "t" 3 []).received_chunks.Nodup ∧
      (∀ i ∈ (sampleSession "s" "uploading" "t" 3 []).received_chunks,
        i < (sampleSession "s" "uploading" "t" 3 []).total_chunks) ∧
      (∀ e ∈ [ChunkEvent.chunk "s" 1 [7] true, ChunkEvent.mark "s" 0],
        eventSid e = "s" → eventIdx e < (sampleSession "s" "uploading" "t" 3 []).total_chunks) ∧
      ({ sampleSession "s" "uploading" "t" 3 [] with
          received_chunks := [0, 1] } : UploadSession).total_chunks =
        (sampleSession "s" "uploading" "t" 3 []).total_chunks ∧
      List.Sorted (· ≤ ·) ([0, 1] : List Nat) ∧ ([0, 1] : List Nat).Nodup ∧
      ∀ i ∈ ([0, 1] : List Nat), i < (sampleSession "s" "uploading" "t" 3 []).total_chunks := by
  refine ⟨by decide, by decide, by decide, by decide, by decide, ?_⟩
  have h := received_chunks_invariant
    (ApiState.mk [("s", sampleSession "s" "uploading" "t" 3 [])] ["s"])
    [ChunkEvent.chunk "s" 1 [7] true, ChunkEvent.mark "s" 0] "s"
    (sampleSession "s" "uploading" "t" 3 [])
    (by decide) (by decide) (by decide) (by decide) (by decide)
    ({ sampleSession "s" "uploading" "t" 3 [] with received_chunks := [0, 1] }) (by decide)
  exact h

end AutoStore
